import Mathlib

/-!
Verification of the natural-language specification of `cargo-contract`'s
`src/util.rs` against a shallow embedding of that file.

Strings from the Rust side are modelled as `List Char` (Rust `str` at char
granularity; all inputs exercised by the specification are ASCII, where this
is byte-exact), byte buffers as `List Nat` with every element below 256, and
filesystem paths as `List String` of path components.  Fallible operations
return `Except`/`Option`, and the filesystem is explicit state.
-/

set_option autoImplicit false

namespace Contract

/-! ## Hex decoding (`decode_hex` and the `hex` crate's `hex::decode`) -/

/-- Error type of the `hex` crate's `FromHexError`. -/
inductive FromHexError where
  | invalidHexCharacter (c : Char) (index : Nat)
  | oddLength
  | invalidStringLength
  deriving DecidableEq, Repr

/-- The `hex` crate's digit lookup `val(c, idx)`: value of one hex digit, or
an `InvalidHexCharacter` error carrying the character and its index. -/
def hexVal (c : Char) (idx : Nat) : Except FromHexError Nat :=
  if 'A' ≤ c ∧ c ≤ 'F' then .ok (c.toNat - 'A'.toNat + 10)
  else if 'a' ≤ c ∧ c ≤ 'f' then .ok (c.toNat - 'a'.toNat + 10)
  else if '0' ≤ c ∧ c ≤ '9' then .ok (c.toNat - '0'.toNat)
  else .error (.invalidHexCharacter c idx)

/-- Pairwise digit loop of `hex::decode`; `idx` is the index of the first
character of the current pair. -/
def hexDecodeGo : List Char → Nat → Except FromHexError (List Nat)
  | [], _ => .ok []
  | [c], idx => (hexVal c idx).bind fun _ => .ok []
  | c1 :: c2 :: rest, idx => do
    let hi ← hexVal c1 idx
    let lo ← hexVal c2 (idx + 1)
    let tail ← hexDecodeGo rest (idx + 2)
    return (hi * 16 + lo) :: tail

/-- The `hex` crate's `hex::decode`: an odd-length input is rejected first
with `OddLength`, then consecutive pairs of digits are decoded left to right. -/
def hexDecode (s : List Char) : Except FromHexError (List Nat) :=
  if s.length % 2 ≠ 0 then .error .oddLength else hexDecodeGo s 0

/-- Rust `input.trim_start_matches("0x")`: remove every repeated leading
occurrence of the two-character prefix `0x`. -/
def trimStart0x : List Char → List Char
  | '0' :: 'x' :: rest => trimStart0x rest
  | s => s

/-- `decode_hex` from `src/util.rs`: if the input starts with `0x`, decode the
input with all leading `0x` prefixes stripped, otherwise decode it as is. -/
def decode_hex (input : List Char) : Except FromHexError (List Nat) :=
  if ['0', 'x'].isPrefixOf input then hexDecode (trimStart0x input)
  else hexDecode input

/-- `n` copies of the prefix `0x` in front of `s`. -/
def prepend0x : Nat → List Char → List Char
  | 0, s => s
  | n + 1, s => '0' :: 'x' :: prepend0x n s

/-! ## External command invoker (`invoke_cargo`) -/

/-- Verbosity levels of the CLI (the `Verbosity` enum consumed by
`invoke_cargo`). -/
inductive Verbosity where
  | quiet
  | verbose
  | default
  deriving DecidableEq, Repr

/-- The state of a `std::process::Command` as `invoke_cargo` builds it:
program name, ordered argument list, optional working directory, and the
ordered list of environment operations (`(var, some v)` sets, `(var, none)`
removes). -/
structure Cmd where
  program : String
  args : List String
  cwd : Option String
  envOps : List (String × Option String)
  deriving DecidableEq, Repr

/-- Builds the command exactly as `invoke_cargo` does: the program is the
`CARGO` environment variable when set, else `"cargo"`; then the environment
operations, the working directory, the subcommand, the caller's args, and
finally the verbosity flag — `--quiet` for `Quiet`, `--verbose` for `Verbose`
unless the subcommand is `dylint`, nothing for `Default`. -/
def buildCargoCmd (cargoEnvVar : Option String) (command : String)
    (args : List String) (workingDir : Option String) (verbosity : Verbosity)
    (env : List (String × Option String)) : Cmd :=
  { program := cargoEnvVar.getD "cargo"
    args := command :: args ++
      (match verbosity with
        | .quiet => ["--quiet"]
        | .verbose => if command ≠ "dylint" then ["--verbose"] else []
        | .default => [])
    cwd := workingDir
    envOps := env }

/-- Outcome of spawning and waiting on the child process: the spawn itself can
fail, or the child exits with a status (`none` models death by signal, where
`ExitStatus::code()` is `None`) and captured stdout bytes. -/
inductive ExecOutcome where
  | spawnFailure
  | exited (code : Option Int) (stdout : List Nat)
  deriving DecidableEq, Repr

/-- Errors surfaced by `invoke_cargo`: the `context(...)` error when the
process cannot be started, and the `bail!` error carrying the command and its
exit code when the child terminates unsuccessfully. -/
inductive InvokeError where
  | spawnError (cmd : Cmd)
  | commandError (cmd : Cmd) (exitCode : Option Int)
  deriving DecidableEq, Repr

/-- `invoke_cargo` from `src/util.rs`, with the single spawn-and-wait of the
child process abstracted as the oracle `exec` from the built command to its
outcome.  `output.status.success()` holds exactly when the exit code is `0`;
on success the captured stdout bytes are returned. -/
def invoke_cargo (exec : Cmd → ExecOutcome) (cargoEnvVar : Option String)
    (command : String) (args : List String) (workingDir : Option String)
    (verbosity : Verbosity) (env : List (String × Option String)) :
    Except InvokeError (List Nat) :=
  let cmd := buildCargoCmd cargoEnvVar command args workingDir verbosity env
  match exec cmd with
  | .spawnFailure => .error (.spawnError cmd)
  | .exited code stdout =>
    if code = some 0 then .ok stdout else .error (.commandError cmd code)

/-! ## Literal string replacement (Rust `str::replace`) -/

/-- Rust `str::replace(pat, rep)`: replace every non-overlapping occurrence of
`pat` in `s` with `rep`, scanning left to right; the replacement text is never
rescanned.  An empty pattern matches at every character boundary, including
both ends, exactly as in Rust. -/
def replaceAll (s pat rep : List Char) : List Char :=
  if pat = [] then rep ++ s.flatMap (fun c => c :: rep)
  else if pat.isPrefixOf s then rep ++ replaceAll (s.drop pat.length) pat rep
  else
    match s with
    | [] => []
    | c :: rest => c :: replaceAll rest pat rep
termination_by s.length
decreasing_by
  · rename_i h0 h1
    have hlen : pat.length ≤ s.length := by
      clear * - h1
      induction pat generalizing s with
      | nil => simp
      | cons a p ih =>
        cases s with
        | nil => simp [List.isPrefixOf] at h1
        | cons b t =>
          simp only [List.isPrefixOf, Bool.and_eq_true] at h1
          have := ih t h1.2
          simp only [List.length_cons]
          omega
    have hpos : 0 < pat.length := List.length_pos.mpr h0
    simp only [List.length_drop]
    omega
  · simp

/-- Whether `pat` occurs as a contiguous substring of `s`. -/
def containsSub : List Char → List Char → Bool
  | [], pat => pat.isEmpty
  | c :: rest, pat => pat.isPrefixOf (c :: rest) || containsSub rest pat

/-! ## Upper camel case (the `heck` crate's `ToUpperCamelCase`)

`unzip` calls `name.to_upper_camel_case()` from the `heck` crate (version
0.4).  The crate is modelled here at ASCII granularity: `char::is_alphanumeric`,
`is_lowercase`, `is_uppercase`, `to_uppercase` and `to_lowercase` are embedded
as the corresponding ASCII operations (`Char.isAlphanum`, `Char.isLower`,
`Char.isUpper`, `Char.toUpper`, `Char.toLower`); every input exercised by the
specification is ASCII, where the two agree. -/

/-- Rust `char::is_lowercase`, at ASCII granularity. -/
def rsIsLower (c : Char) : Bool := 97 ≤ c.toNat && c.toNat ≤ 122

/-- Rust `char::is_uppercase`, at ASCII granularity. -/
def rsIsUpper (c : Char) : Bool := 65 ≤ c.toNat && c.toNat ≤ 90

/-- Rust `char::is_numeric` on ASCII digits. -/
def rsIsDigit (c : Char) : Bool := 48 ≤ c.toNat && c.toNat ≤ 57

/-- Rust `char::is_alphanumeric`, at ASCII granularity. -/
def rsIsAlphanum (c : Char) : Bool := rsIsLower c || rsIsUpper c || rsIsDigit c

/-- Rust `char::to_uppercase`, at ASCII granularity (a single character). -/
def rsToUpper (c : Char) : Char :=
  if rsIsLower c then Char.ofNat (c.toNat - 32) else c

/-- Rust `char::to_lowercase`, at ASCII granularity (a single character). -/
def rsToLower (c : Char) : Char :=
  if rsIsUpper c then Char.ofNat (c.toNat + 32) else c

/-- Case-tracking mode of `heck`'s word-boundary scanner (`WordMode`). -/
inductive WordMode where
  | boundary
  | lowercase
  | uppercase
  deriving DecidableEq, Repr

/-- Rust `s.split(p)`: split at every character satisfying `p`, keeping empty
pieces (so `"" ↦ [""]`, `"-a" ↦ ["", "a"]`). -/
def splitBy (p : Char → Bool) : List Char → List (List Char)
  | [] => [[]]
  | c :: rest =>
    if p c then [] :: splitBy p rest
    else
      match splitBy p rest with
      | [] => [[c]]
      | w :: ws => (c :: w) :: ws

/-- The word-boundary scanner of `heck::transform` on one separator-free word:
`acc` holds the characters consumed since the last boundary.  A boundary falls
after a lowercase character followed by an uppercase one, and before the last
of a run of uppercase characters that is followed by a lowercase one. -/
def splitWordAux : WordMode → List Char → List Char → List (List Char)
  | _, _, [] => []
  | _, acc, [c] => [acc ++ [c]]
  | mode, acc, c :: next :: rest =>
    let nextMode :=
      if rsIsLower c then WordMode.lowercase
      else if rsIsUpper c then WordMode.uppercase
      else mode
    if nextMode = WordMode.lowercase ∧ rsIsUpper next then
      (acc ++ [c]) :: splitWordAux .boundary [] (next :: rest)
    else if mode = WordMode.uppercase ∧ rsIsUpper c ∧ rsIsLower next then
      acc :: splitWordAux .boundary [c] (next :: rest)
    else
      splitWordAux nextMode (acc ++ [c]) (next :: rest)

/-- `heck`'s `capitalize`: first character uppercased, the rest lowercased. -/
def capitalize : List Char → List Char
  | [] => []
  | c :: rest => rsToUpper c :: rest.map rsToLower

/-- `heck`'s `ToUpperCamelCase`: split on non-alphanumeric characters, find
case-transition word boundaries inside each piece, capitalize every word and
concatenate with no separator. -/
def toUpperCamelCase (s : List Char) : List Char :=
  ((splitBy (fun c => !rsIsAlphanum c) s).flatMap
      (fun w => splitWordAux .boundary [] w)).flatMap
    capitalize

/-- Modelled from the spec (§4.3/§6), for comparison against the code's
`toUpperCamelCase`: the project name converted to upper-camel-case, read as
"each `-`/`_`/space-delimited segment capitalized and concatenated, no
separators", with "capitalized" read literally as "first character
uppercased". -/
def specUpperCamelCase (s : List Char) : List Char :=
  ((splitBy (fun c => c == '-' || c == '_' || c == ' ') s).map
      (fun w =>
        match w with
        | [] => []
        | c :: rest => rsToUpper c :: rest)).flatten

/-- The `name`-placeholder token recognized in text members. -/
def nameTok : List Char := ['{', '{', 'n', 'a', 'm', 'e', '}', '}']

/-- The `camel_name`-placeholder token recognized in text members. -/
def camelTok : List Char :=
  ['{', '{', 'c', 'a', 'm', 'e', 'l', '_', 'n', 'a', 'm', 'e', '}', '}']

/-- The placeholder substitution performed by `unzip` on a text member when a
project name is supplied: first every occurrence of the `name` token is
replaced with the name, then every occurrence of the `camel_name` token is
replaced with the upper-camel-cased name. -/
def substitute (text projectName : List Char) : List Char :=
  replaceAll (replaceAll text nameTok projectName) camelTok
    (toUpperCamelCase projectName)

/-- Characters allowed in the claims' project names: ASCII alphanumerics,
hyphens and underscores. -/
def isAlnumHyphUnd (c : Char) : Bool :=
  rsIsAlphanum c || c == '-' || c == '_'

/-- Characters of a project name in the fragment on which the code's camel
casing and the spec's formula coincide: lowercase letters, digits, hyphens,
underscores and spaces. -/
def isLowerSegChar (c : Char) : Bool :=
  rsIsLower c || rsIsDigit c || c == '-' || c == '_' || c == ' '

/-! ## UTF-8 (validation performed by Rust `read_to_string`, and
`String::as_bytes` for writing the substituted text back out) -/

/-- A UTF-8 continuation byte (`0x80..=0xBF`). -/
def isUtf8Cont (b : Nat) : Bool := 128 ≤ b && b ≤ 191

/-- Strict UTF-8 decoding of a byte sequence, exactly as Rust's
`str::from_utf8` validates it: 1–4 byte sequences with the standard
first-byte/second-byte ranges, rejecting overlong encodings, surrogates and
code points beyond `0x10FFFF`. -/
def utf8Decode : List Nat → Option (List Char)
  | [] => some []
  | b :: rest =>
    if b < 128 then (utf8Decode rest).map fun cs => Char.ofNat b :: cs
    else if 194 ≤ b && b ≤ 223 then
      match rest with
      | b1 :: rest2 =>
        if isUtf8Cont b1 then
          (utf8Decode rest2).map fun cs =>
            Char.ofNat ((b - 192) * 64 + (b1 - 128)) :: cs
        else none
      | [] => none
    else if 224 ≤ b && b ≤ 239 then
      match rest with
      | b1 :: b2 :: rest3 =>
        if ((if b = 224 then 160 else 128) ≤ b1
              && b1 ≤ (if b = 237 then 159 else 191))
            && isUtf8Cont b2 then
          (utf8Decode rest3).map fun cs =>
            Char.ofNat ((b - 224) * 4096 + (b1 - 128) * 64 + (b2 - 128)) :: cs
        else none
      | _ => none
    else if 240 ≤ b && b ≤ 244 then
      match rest with
      | b1 :: b2 :: b3 :: rest4 =>
        if (((if b = 240 then 144 else 128) ≤ b1
              && b1 ≤ (if b = 244 then 143 else 191))
            && isUtf8Cont b2) && isUtf8Cont b3 then
          (utf8Decode rest4).map fun cs =>
            Char.ofNat ((b - 240) * 262144 + (b1 - 128) * 4096
              + (b2 - 128) * 64 + (b3 - 128)) :: cs
        else none
      | _ => none
    else none

/-- UTF-8 encoding of one scalar value (Rust `char::encode_utf8`). -/
def utf8EncodeChar (c : Char) : List Nat :=
  let n := c.toNat
  if n < 128 then [n]
  else if n < 2048 then [192 + n / 64, 128 + n % 64]
  else if n < 65536 then [224 + n / 4096, 128 + (n / 64) % 64, 128 + n % 64]
  else [240 + n / 262144, 128 + (n / 4096) % 64, 128 + (n / 64) % 64,
    128 + n % 64]

/-- UTF-8 encoding of a string (Rust `str::as_bytes`). -/
def utf8Encode (s : List Char) : List Nat := s.flatMap utf8EncodeChar

/-! ## Filesystem model and the scaffolder (`unzip`)

Paths are lists of components.  `PathBuf::join` with an absolute member name
replaces the base; the leading `""` component marks the filesystem root in
that case.  Directories are a set represented as a list (duplicates are
harmless and read through membership); files are an association list whose
newest entry shadows older ones, read through `List.lookup`. -/

/-- One archive member as `unzip` consumes it: `file.name()`, the full
content bytes, and `file.unix_mode()`. -/
structure ZipMember where
  name : List Char
  content : List Nat
  unixMode : Option Nat
  deriving DecidableEq, Repr

/-- The filesystem state touched by `unzip`: existing directories, existing
files with contents, and recorded permission bits. -/
structure FS where
  dirs : List (List String)
  files : List (List String × List Nat)
  perms : List (List String × Nat)
  deriving DecidableEq, Repr

/-- Failures surfaced by `unzip`: the dedicated "File … already exists"
error naming the member, the UTF-8 failure of `read_to_string` when
substitution was requested, and any other propagated filesystem error. -/
inductive UnzipError where
  | fileAlreadyExists (name : List Char)
  | nonUtf8 (name : List Char)
  | ioError
  deriving DecidableEq, Repr

/-- Member names are forward-slash separated; empty components collapse, as
`Path::components` does. -/
def splitPath (name : List Char) : List String :=
  ((splitBy (fun c => c == '/') name).map fun cs => String.mk cs).filter
    fun s => s != ""

/-- `out_dir.join(file.name())`. -/
def pathJoin (root : List String) (name : List Char) : List String :=
  if name.head? = some '/' then "" :: splitPath name
  else root ++ splitPath name

/-- `Path::parent`: `none` for the empty path, otherwise the path without its
last component (the parent of a single component is the empty path `[]`,
Rust's `Some("")`). -/
def parentPath (p : List String) : Option (List String) :=
  if p = [] then none else some p.dropLast

/-- `Path::exists`: a directory or file is present at the path. -/
def pathExists (fs : FS) (p : List String) : Bool :=
  decide (p ∈ fs.dirs) || (fs.files.lookup p).isSome

/-- Nonempty prefixes of a path, shortest first: the ancestors
`fs::create_dir_all` creates, ending with the path itself. -/
def properPrefixes (p : List String) : List (List String) :=
  (List.range p.length).map fun k => p.take (k + 1)

/-- Creation loop of `fs::create_dir_all`, top down: an existing directory is
fine (`mkdir` returning `EEXIST` on a directory is success), a file in the way
aborts with an error, leaving the ancestors created so far in place. -/
def createDirAllGo (fs : FS) : List (List String) → FS × Bool
  | [] => (fs, true)
  | q :: qs =>
    if (fs.files.lookup q).isSome then (fs, false)
    else createDirAllGo { fs with dirs := q :: fs.dirs } qs

/-- `fs::create_dir_all`: create every missing ancestor; the empty path
returns `Ok` immediately. -/
def createDirAll (fs : FS) (p : List String) : FS × Bool :=
  createDirAllGo fs (properPrefixes p)

/-- `OpenOptions::new().write(true).create_new(true).open(outpath)`: with
`O_EXCL`, anything already at the path — file or directory — yields an
`AlreadyExists` error, which `unzip` maps to the "File … already exists"
message naming the member; a missing or non-directory parent yields a plain
I/O error (on a well-formed filesystem the two conditions are exclusive, so
their order is immaterial).  On success an empty file appears at the path. -/
def parentOk (fs : FS) (p : List String) : Bool :=
  match parentPath p with
  | some q => q.isEmpty || decide (q ∈ fs.dirs)
  | none => false

def createNewFile (fs : FS) (p : List String) (memberName : List Char) :
    Except UnzipError FS :=
  if pathExists fs p then .error (.fileAlreadyExists memberName)
  else if parentOk fs p then .ok { fs with files := (p, []) :: fs.files }
  else .error .ioError

/-- `outfile.write_all(bytes)` on the freshly created file. -/
def setFile (fs : FS) (p : List String) (bytes : List Nat) : FS :=
  { fs with files := (p, bytes) :: fs.files }

/-- `fs::set_permissions(&outpath, Permissions::from_mode(mode))`: fails if
nothing exists at the path. -/
def setPermissions (fs : FS) (p : List String) (mode : Nat) : Option FS :=
  if pathExists fs p then some { fs with perms := (p, mode) :: fs.perms }
  else none

/-- The `cfg(unix)` permission step after each member: a no-op when the
archive recorded no mode bits. -/
def applyUnixMode (fs : FS) (p : List String) :
    Option Nat → FS × Option UnzipError
  | none => (fs, none)
  | some mode =>
    match setPermissions fs p mode with
    | none => (fs, some .ioError)
    | some fs1 => (fs1, none)

/-- `(*file.name()).ends_with('/')`: the directory-marker test. -/
def isDirName (name : List Char) : Bool := name.getLast? = some '/'

/-- One iteration of `unzip`'s loop on member `m`: compute the target path;
directories are created recursively; for files, ensure the parent directory
exists if it does not, create the target in exclusive-create mode, then — if
a project name was supplied — decode the content as UTF-8 and substitute
placeholders before writing, otherwise copy the bytes verbatim; finally apply
recorded permission bits.  Returns the filesystem after whatever writes
happened, plus the error if the step failed. -/
def ensureParent (fs : FS) (outpath : List String) : FS × Option UnzipError :=
  match parentPath outpath with
  | some q =>
    if pathExists fs q then (fs, none)
    else
      if (createDirAll fs q).2 then ((createDirAll fs q).1, none)
      else ((createDirAll fs q).1, some .ioError)
  | none => (fs, none)

/-- The file-member body after the parent directory is ensured: exclusive
creation, then substitution or verbatim copy, then permission bits. -/
def writeFileMember (projectName : Option (List Char)) (fs : FS)
    (m : ZipMember) (outpath : List String) : FS × Option UnzipError :=
  match createNewFile fs outpath m.name with
  | .error e => (fs, some e)
  | .ok fs2 =>
    match projectName with
    | some n =>
      match utf8Decode m.content with
      | none => (fs2, some (.nonUtf8 m.name))
      | some text =>
        applyUnixMode (setFile fs2 outpath (utf8Encode (substitute text n)))
          outpath m.unixMode
    | none =>
      applyUnixMode (setFile fs2 outpath m.content) outpath m.unixMode

def processMember (outDir : List String) (projectName : Option (List Char))
    (fs : FS) (m : ZipMember) : FS × Option UnzipError :=
  let outpath := pathJoin outDir m.name
  if isDirName m.name then
    if (createDirAll fs outpath).2 then
      applyUnixMode (createDirAll fs outpath).1 outpath m.unixMode
    else ((createDirAll fs outpath).1, some .ioError)
  else
    match (ensureParent fs outpath).2 with
    | some e => ((ensureParent fs outpath).1, some e)
    | none => writeFileMember projectName (ensureParent fs outpath).1 m outpath

/-- The member loop of `unzip`: members are processed in archive order and
the first failure aborts the remaining extraction, keeping the files already
written (no rollback). -/
def unzipGo (outDir : List String) (projectName : Option (List Char)) :
    FS → List ZipMember → FS × Option UnzipError
  | fs, [] => (fs, none)
  | fs, m :: rest =>
    match processMember outDir projectName fs m with
    | (fs1, none) => unzipGo outDir projectName fs1 rest
    | (fs1, some e) => (fs1, some e)

/-- `unzip` from `src/util.rs`.  Parsing the in-memory byte buffer into an
archive (`zip::ZipArchive::new` plus `by_index`) is the external archive
reader; a parsed archive is its ordered member list, and `out_dir` is given
in path components. -/
def unzip (template : List ZipMember) (outDir : List String)
    (projectName : Option (List Char)) (fs : FS) : FS × Option UnzipError :=
  unzipGo outDir projectName fs template

/-- Invariant of every filesystem reachable on a real disk: each existing
file sits either directly under the current directory (empty parent path) or
under an existing directory. -/
def filesHaveParents (fs : FS) : Bool :=
  fs.files.all fun e =>
    match parentPath e.1 with
    | none => false
    | some q => q.isEmpty || decide (q ∈ fs.dirs)

/-! ## Theorems -/

theorem trimStart0x_eq_self {s : List Char} (h : ¬ ['0', 'x'].isPrefixOf s) :
    trimStart0x s = s := by
  rw [trimStart0x.eq_def]
  split
  · rename_i rest
    exact absurd (by simp [List.isPrefixOf]) h
  · rfl

theorem decode_hex_eq_trimmed (s : List Char) :
    decode_hex s = hexDecode (trimStart0x s) := by
  by_cases h : ['0', 'x'].isPrefixOf s
  · simp [decode_hex, h]
  · simp [decode_hex, h, trimStart0x_eq_self h]

theorem trimStart0x_prepend0x (n : Nat) (s : List Char) :
    trimStart0x (prepend0x n s) = trimStart0x s := by
  induction n with
  | zero => rfl
  | succ k ih => rw [prepend0x, trimStart0x, ih]

/-- C9: `decode_hex` accepts input with or without a leading `0x` prefix and
the two forms decode identically: `decode_hex "0xDEAD" = decode_hex "DEAD"`,
both the two bytes `0xDE, 0xAD`; malformed input fails with an error — `"xyz"`
fails (its odd length is rejected before its invalid digits are reached),
`"zz"` fails with an invalid-hex-digit error, and an odd-length digit string
such as `"ABC"` fails with an odd-length error. -/
theorem c9_decode_hex_with_or_without_prefix :
    decode_hex ("0xDEAD".toList) = decode_hex ("DEAD".toList)
      ∧ decode_hex ("DEAD".toList) = .ok [0xDE, 0xAD]
      ∧ decode_hex ("xyz".toList) = .error .oddLength
      ∧ decode_hex ("zz".toList) = .error (.invalidHexCharacter 'z' 0)
      ∧ decode_hex ("ABC".toList) = .error .oddLength :=
  ⟨rfl, rfl, rfl, rfl, rfl⟩

/-- C10: `decode_hex` strips all repeated leading `0x` prefixes, not just one:
for every string `s` and every `n ≥ 1`, decoding `n` copies of `0x` followed
by `s` yields the same result as decoding `s` itself. -/
theorem c10_decode_hex_strips_repeated_prefixes (s : List Char) (n : Nat)
    (_h : 1 ≤ n) : decode_hex (prepend0x n s) = decode_hex s := by
  rw [decode_hex_eq_trimmed, decode_hex_eq_trimmed s, trimStart0x_prepend0x]

/-- Witness for C10 at `n = 2`, `s = "DEAD"`: `decode_hex "0x0xDEAD"` equals
`decode_hex "DEAD"`. -/
theorem c10_witness :
    1 ≤ 2 ∧ prepend0x 2 ("DEAD".toList) = "0x0xDEAD".toList
      ∧ decode_hex (prepend0x 2 ("DEAD".toList)) = decode_hex ("DEAD".toList) :=
  ⟨by decide, by decide,
    c10_decode_hex_strips_repeated_prefixes ("DEAD".toList) 2 (by decide)⟩

/-- C7: the verbosity flag appended by `invoke_cargo` comes after the
subcommand name and the caller's args, and is exactly one flag `--quiet` for
`Quiet`; `--verbose` for `Verbose` unless the subcommand is `dylint`, for
which it is suppressed; and nothing for `Default`. -/
theorem c7_verbosity_flag_appended (cargoEnvVar : Option String)
    (command : String) (args : List String) (workingDir : Option String)
    (env : List (String × Option String)) :
    (buildCargoCmd cargoEnvVar command args workingDir .quiet env).args
        = command :: args ++ ["--quiet"]
      ∧ (buildCargoCmd cargoEnvVar command args workingDir .default env).args
        = command :: args
      ∧ (command ≠ "dylint" →
          (buildCargoCmd cargoEnvVar command args workingDir .verbose env).args
            = command :: args ++ ["--verbose"])
      ∧ (buildCargoCmd cargoEnvVar "dylint" args workingDir .verbose env).args
        = "dylint" :: args := by
  refine ⟨rfl, by simp [buildCargoCmd], fun h => by simp [buildCargoCmd, h],
    by simp [buildCargoCmd]⟩

/-- Witness for C7 at the spec's example: empty argument list, verbosity
`Quiet`, subcommand `build` — the command line is the subcommand followed by
exactly one extra flag `--quiet` (and `dylint` with `Verbose` gets no flag). -/
theorem c7_witness :
    (buildCargoCmd none "build" [] none .quiet []).args = ["build", "--quiet"]
      ∧ ("build" ≠ "dylint" →
          (buildCargoCmd none "build" [] none .verbose []).args
            = ["build", "--verbose"])
      ∧ (buildCargoCmd none "dylint" [] none .verbose []).args = ["dylint"] :=
  ⟨(c7_verbosity_flag_appended none "build" [] none []).1,
    fun h => ((c7_verbosity_flag_appended none "build" [] none []).2.2.1 h),
    (c7_verbosity_flag_appended none "dylint" [] none []).2.2.2⟩

/-- C8: `invoke_cargo` maps the child-process outcome to its result — a spawn
failure becomes a spawn error, a non-zero (or signal) exit status becomes an
error carrying the built command and the exit code, and a zero exit status
returns the captured stdout bytes. -/
theorem c8_exit_status_mapping (exec : Cmd → ExecOutcome)
    (cargoEnvVar : Option String) (command : String) (args : List String)
    (workingDir : Option String) (verbosity : Verbosity)
    (env : List (String × Option String)) :
    (exec (buildCargoCmd cargoEnvVar command args workingDir verbosity env)
        = .spawnFailure →
      invoke_cargo exec cargoEnvVar command args workingDir verbosity env
        = .error (.spawnError
            (buildCargoCmd cargoEnvVar command args workingDir verbosity env)))
    ∧ (∀ code stdout,
        exec (buildCargoCmd cargoEnvVar command args workingDir verbosity env)
            = .exited code stdout →
          code ≠ some 0 →
          invoke_cargo exec cargoEnvVar command args workingDir verbosity env
            = .error (.commandError
                (buildCargoCmd cargoEnvVar command args workingDir verbosity env)
                code))
    ∧ (∀ stdout,
        exec (buildCargoCmd cargoEnvVar command args workingDir verbosity env)
            = .exited (some 0) stdout →
          invoke_cargo exec cargoEnvVar command args workingDir verbosity env
            = .ok stdout) := by
  refine ⟨fun h => by simp [invoke_cargo, h],
    fun code stdout h hc => by simp [invoke_cargo, h, hc],
    fun stdout h => by simp [invoke_cargo, h]⟩

/-- Witness for C8 with an oracle that always reports exit code `1` and
stdout `[]`: the invoker returns the command error carrying exit code `1`. -/
theorem c8_witness :
    (fun _ : Cmd => ExecOutcome.exited (some 1) [])
        (buildCargoCmd none "build" [] none .default [])
      = .exited (some 1) []
    ∧ (some (1 : Int) ≠ some 0)
    ∧ invoke_cargo (fun _ => .exited (some 1) []) none "build" [] none
        .default []
      = .error (.commandError (buildCargoCmd none "build" [] none .default [])
          (some 1)) :=
  ⟨rfl, by decide,
    (c8_exit_status_mapping (fun _ => .exited (some 1) []) none "build" []
        none .default []).2.1 (some 1) [] rfl (by decide)⟩

theorem isPrefixOf_length_le :
    ∀ (p s : List Char), p.isPrefixOf s = true → p.length ≤ s.length
  | [], _, _ => by simp
  | a :: p, [], h => by simp [List.isPrefixOf] at h
  | a :: p, b :: s, h => by
    simp only [List.isPrefixOf, Bool.and_eq_true] at h
    have := isPrefixOf_length_le p s h.2
    simp only [List.length_cons]
    omega

theorem isPrefixOf_self : ∀ (p : List Char), p.isPrefixOf p = true
  | [] => rfl
  | a :: p => by simp [List.isPrefixOf, isPrefixOf_self p]

theorem replaceAll_nil {pat : List Char} (rep : List Char) (h : pat ≠ []) :
    replaceAll [] pat rep = [] := by
  rw [replaceAll.eq_def]
  have : pat.isPrefixOf ([] : List Char) = false := by
    cases pat with
    | nil => exact absurd rfl h
    | cons a p => rfl
  simp [h, this]

/-- Replacing the pattern inside exactly the pattern yields exactly the
replacement. -/
theorem replaceAll_self (pat rep : List Char) : replaceAll pat pat rep = rep := by
  by_cases h : pat = []
  · subst h; rw [replaceAll]; simp
  · rw [replaceAll.eq_def]
    simp [h, isPrefixOf_self pat, List.drop_length, replaceAll_nil rep h]

/-- A string with no occurrence of the pattern is left unchanged. -/
theorem replaceAll_of_not_contains :
    ∀ (s pat rep : List Char), containsSub s pat = false → replaceAll s pat rep = s
  | s, pat, rep, h => by
    have hpat : pat ≠ [] := by
      intro he
      subst he
      cases s with
      | nil => simp [containsSub, List.isEmpty] at h
      | cons c rest => simp [containsSub, List.isPrefixOf] at h
    cases s with
    | nil =>
      exact replaceAll_nil rep hpat
    | cons c rest =>
      simp only [containsSub, Bool.or_eq_false_iff] at h
      rw [replaceAll.eq_def]
      simp only [hpat, if_false, h.1, Bool.false_eq_true, if_false]
      rw [replaceAll_of_not_contains rest pat rep h.2]

theorem lowerSeg_not_upper {c : Char} (h : isLowerSegChar c = true) :
    rsIsUpper c = false := by
  simp only [isLowerSegChar, rsIsLower, rsIsDigit, Bool.or_eq_true,
    beq_iff_eq, Bool.and_eq_true, decide_eq_true_iff] at h
  simp only [rsIsUpper, Bool.and_eq_false_iff, decide_eq_false_iff_not]
  rcases h with (((⟨h1, h2⟩ | ⟨h1, h2⟩) | rfl) | rfl) | rfl
  · omega
  · omega
  · left; decide
  · right; decide
  · left; decide

theorem rsToLower_of_not_upper {c : Char} (h : rsIsUpper c = false) :
    rsToLower c = c := by
  simp [rsToLower, h]

theorem lowerSeg_alnum_iff {c : Char} (h : isLowerSegChar c = true) :
    (!rsIsAlphanum c) = (c == '-' || c == '_' || c == ' ') := by
  simp only [isLowerSegChar, Bool.or_eq_true, beq_iff_eq] at h
  rcases h with (((hl | hd) | rfl) | rfl) | rfl
  · have h1 : rsIsAlphanum c = true := by simp [rsIsAlphanum, hl]
    have h2 : (c == '-') = false := by
      simp only [beq_eq_false_iff_ne, ne_eq]
      intro he; subst he; simp [rsIsLower] at hl
    have h3 : (c == '_') = false := by
      simp only [beq_eq_false_iff_ne, ne_eq]
      intro he; subst he; simp [rsIsLower] at hl
    have h4 : (c == ' ') = false := by
      simp only [beq_eq_false_iff_ne, ne_eq]
      intro he; subst he; simp [rsIsLower] at hl
    simp [h1, h2, h3, h4]
  · have h1 : rsIsAlphanum c = true := by simp [rsIsAlphanum, hd]
    have h2 : (c == '-') = false := by
      simp only [beq_eq_false_iff_ne, ne_eq]
      intro he; subst he; simp [rsIsDigit] at hd
    have h3 : (c == '_') = false := by
      simp only [beq_eq_false_iff_ne, ne_eq]
      intro he; subst he; simp [rsIsDigit] at hd
    have h4 : (c == ' ') = false := by
      simp only [beq_eq_false_iff_ne, ne_eq]
      intro he; subst he; simp [rsIsDigit] at hd
    simp [h1, h2, h3, h4]
  · decide
  · decide
  · decide

theorem alnumHyphUnd_ne_brace {c : Char} (h : isAlnumHyphUnd c = true) :
    c ≠ '{' := by
  intro he
  subst he
  simp [isAlnumHyphUnd, rsIsAlphanum, rsIsLower, rsIsUpper, rsIsDigit] at h

/-- A string without the character that starts the two tokens contains
neither token. -/
theorem not_contains_of_no_brace :
    ∀ {s : List Char}, (∀ c ∈ s, c ≠ '{') →
      ∀ {pat : List Char} {rest : List Char}, pat = '{' :: rest →
        containsSub s pat = false
  | [], _, pat, rest, hpat => by
    subst hpat
    simp [containsSub, List.isEmpty]
  | c :: s, h, pat, rest, hpat => by
    subst hpat
    have hc : c ≠ '{' := h c (by simp)
    have hpre : List.isPrefixOf ('{' :: rest) (c :: s) = false := by
      simp only [List.isPrefixOf, Bool.and_eq_false_iff]
      left
      simp only [beq_eq_false_iff_ne, ne_eq]
      exact fun he => absurd he.symm hc
    simp only [containsSub, hpre, Bool.false_or]
    exact not_contains_of_no_brace (fun d hd => h d (by simp [hd])) rfl

theorem splitBy_ne_nil (p : Char → Bool) (s : List Char) : splitBy p s ≠ [] := by
  cases s with
  | nil => simp [splitBy]
  | cons c rest =>
    rw [splitBy]
    split
    · simp
    · split
      · simp
      · simp

theorem splitBy_congr {p q : Char → Bool} :
    ∀ {s : List Char}, (∀ c ∈ s, p c = q c) → splitBy p s = splitBy q s
  | [], _ => rfl
  | c :: rest, h => by
    have hc : p c = q c := h c (by simp)
    have ih : splitBy p rest = splitBy q rest :=
      splitBy_congr fun d hd => h d (by simp [hd])
    rw [splitBy, splitBy, hc, ih]

theorem splitBy_chars {p : Char → Bool} {P : Char → Prop} :
    ∀ {s : List Char}, (∀ c ∈ s, P c) →
      ∀ {w : List Char}, w ∈ splitBy p s →
        ∀ {c : Char}, c ∈ w → P c ∧ p c = false
  | [], _, w, hw, c, hc => by
    simp [splitBy] at hw
    subst hw
    simp at hc
  | a :: rest, h, w, hw, c, hc => by
    have ih := @splitBy_chars p P rest (fun d hd => h d (by simp [hd]))
    rw [splitBy] at hw
    by_cases hpa : p a
    · rw [if_pos hpa] at hw
      rcases List.mem_cons.mp hw with rfl | hw'
      · simp at hc
      · exact ih hw' hc
    · rw [if_neg hpa] at hw
      rcases hsp : splitBy p rest with _ | ⟨w', ws⟩
      · exact absurd hsp (splitBy_ne_nil p rest)
      · rw [hsp] at hw
        rcases List.mem_cons.mp hw with rfl | hw'
        · rcases List.mem_cons.mp hc with rfl | hc'
          · exact ⟨h c (by simp), Bool.not_eq_true _ ▸ by simpa using hpa⟩
          · exact ih (hsp ▸ List.mem_cons_self w' ws) hc'
        · exact ih (hsp ▸ List.mem_cons_of_mem w' hw') hc

theorem splitWordAux_no_upper :
    ∀ (w : List Char), w ≠ [] → (∀ c ∈ w, rsIsUpper c = false) →
      ∀ (mode : WordMode) (acc : List Char), splitWordAux mode acc w = [acc ++ w]
  | [], hne, _, _, _ => absurd rfl hne
  | [c], _, _, mode, acc => by simp [splitWordAux]
  | c :: next :: rest, _, hn, mode, acc => by
    have hc : rsIsUpper c = false := hn c (by simp)
    have hnext : rsIsUpper next = false := hn next (by simp)
    have ih := splitWordAux_no_upper (next :: rest) (by simp)
      (fun d hd => hn d (by simp [List.mem_cons.mp hd]))
    rw [splitWordAux]
    simp only [hc, hnext, Bool.false_eq_true, and_false, false_and, if_false,
      ite_false]
    rw [ih _ (acc ++ [c])]
    simp

theorem flatMap_flatMap {α β γ : Type} (l : List α) (f : α → List β)
    (g : β → List γ) :
    (l.flatMap f).flatMap g = l.flatMap fun a => (f a).flatMap g := by
  induction l with
  | nil => rfl
  | cons a rest ih => simp [List.flatMap_cons, ih]

/-- On project names built from lowercase letters, digits, hyphens,
underscores and spaces, `heck`'s upper camel case is exactly the spec's
formula: each separator-delimited segment capitalized and concatenated. -/
theorem toUpperCamelCase_eq_spec {n : List Char}
    (h : ∀ c ∈ n, isLowerSegChar c = true) :
    toUpperCamelCase n = specUpperCamelCase n := by
  unfold toUpperCamelCase specUpperCamelCase
  rw [splitBy_congr (p := fun c => !rsIsAlphanum c)
    (q := fun c => c == '-' || c == '_' || c == ' ')
    (fun c hc => lowerSeg_alnum_iff (h c hc))]
  rw [List.flatten_eq_flatMap, List.flatMap_map, flatMap_flatMap]
  refine List.flatMap_congr fun w hw => ?_
  have hchars := fun {c : Char} (hc : c ∈ w) =>
    @splitBy_chars (fun c => c == '-' || c == '_' || c == ' ')
      (fun c => isLowerSegChar c = true) n h w hw c hc
  cases w with
  | nil => rfl
  | cons c rest =>
    have hnoup : ∀ d ∈ c :: rest, rsIsUpper d = false := fun d hd =>
      lowerSeg_not_upper (hchars hd).1
    rw [splitWordAux_no_upper (c :: rest) (by simp) hnoup .boundary []]
    simp only [List.flatMap_cons, List.flatMap_nil, List.append_nil,
      List.nil_append, capitalize, id]
    congr 1
    have : rest.map rsToLower = rest.map id :=
      List.map_congr_left fun d hd =>
        rsToLower_of_not_upper (hnoup d (by simp [hd]))
    rw [this, List.map_id]

/-- The first replacement scans the literal text only, so the camel-name
token used as text survives it, and the second replacement then maps it to
the upper-camel-cased name. -/
theorem substitute_camelTok_text (n : List Char) :
    substitute camelTok n = toUpperCamelCase n := by
  unfold substitute
  rw [replaceAll_of_not_contains camelTok nameTok n (by decide), replaceAll_self]

/-- C1 is refuted at the alphanumeric project name `FOOfooBar`: the code
(via `heck`) rewrites it to `FoOfooBar` when substituting the camel-name
token, while the spec's formula — each `-`/`_`/space-delimited segment
capitalized and concatenated — keeps the single segment `FOOfooBar`. -/
theorem c1_counterexample :
    substitute camelTok ("FOOfooBar".toList) = "FoOfooBar".toList
      ∧ specUpperCamelCase ("FOOfooBar".toList) = "FOOfooBar".toList
      ∧ (∀ c ∈ "FOOfooBar".toList, isAlnumHyphUnd c = true)
      ∧ "FoOfooBar".toList ≠ "FOOfooBar".toList := by
  refine ⟨?_, by decide, by decide, by decide⟩
  rw [substitute_camelTok_text]
  decide

/-- C1 (amended): the substitution performs exactly the two literal
replacements in order — first the name token with the project name, then the
camel-name token with `heck`'s upper-camel-casing of the name.  For a name of
alphanumerics/hyphens/underscores, substituting the name token yields the name
itself, and substituting the camel-name token yields the `heck` camel form.
That camel form equals the spec's "each segment capitalized and concatenated"
exactly on names whose letters are all lowercase (lowercase alphanumerics,
hyphens, underscores, spaces) — for names with uppercase letters `heck` also
splits words at case transitions and lowercases word remainders.  In
particular `my-cool-thing` becomes `MyCoolThing`. -/
theorem c1_substitution (text n : List Char) :
    substitute text n
        = replaceAll (replaceAll text nameTok n) camelTok (toUpperCamelCase n)
      ∧ ((∀ c ∈ n, isAlnumHyphUnd c = true) → substitute nameTok n = n)
      ∧ substitute camelTok n = toUpperCamelCase n
      ∧ ((∀ c ∈ n, isLowerSegChar c = true) →
          toUpperCamelCase n = specUpperCamelCase n)
      ∧ substitute camelTok ("my-cool-thing".toList) = "MyCoolThing".toList := by
  refine ⟨rfl, fun hn => ?_, substitute_camelTok_text n,
    fun hn => toUpperCamelCase_eq_spec hn, ?_⟩
  · unfold substitute
    rw [replaceAll_self]
    exact replaceAll_of_not_contains n camelTok _
      (not_contains_of_no_brace
        (fun c hc => alnumHyphUnd_ne_brace (hn c hc)) rfl)
  · rw [substitute_camelTok_text]
    decide

/-- Witness for C1 at the spec's examples: the project name `demo` substitutes
for the name token verbatim, and `my-cool-thing` camel-cases identically under
the code and the spec formula. -/
theorem c1_witness :
    (∀ c ∈ "demo".toList, isAlnumHyphUnd c = true)
      ∧ substitute nameTok ("demo".toList) = "demo".toList
      ∧ (∀ c ∈ "my-cool-thing".toList, isLowerSegChar c = true)
      ∧ toUpperCamelCase ("my-cool-thing".toList)
          = specUpperCamelCase ("my-cool-thing".toList) :=
  ⟨by decide, (c1_substitution nameTok ("demo".toList)).2.1 (by decide),
    by decide,
    (c1_substitution nameTok ("my-cool-thing".toList)).2.2.2.1 (by decide)⟩

/-- C5 is refuted at the project name whose value is the literal camel-name
token: replacing the name token inserts it, and the subsequent camel-name
replacement rescans that inserted text and rewrites it to `CamelName` instead
of leaving it untouched. -/
theorem c5_counterexample :
    substitute nameTok camelTok = "CamelName".toList
      ∧ "CamelName".toList ≠ camelTok := by
  constructor
  · unfold substitute
    rw [replaceAll_self, replaceAll_self]
    decide
  · decide

/-- C5 (amended): no replacement rescans its own output, and the camel-name
replacement's output is final; but the text introduced by the name-token
replacement is still scanned by the subsequent camel-name replacement, so only
a project name not containing the camel-name token is inserted verbatim and
left untouched — including names that contain the name token itself. -/
theorem c5_no_nested_substitution (n : List Char)
    (h : containsSub n camelTok = false) :
    substitute nameTok n = n := by
  unfold substitute
  rw [replaceAll_self]
  exact replaceAll_of_not_contains n camelTok _ h

/-- Witness for C5 at a project name that contains the name token itself: it
is inserted verbatim and left untouched. -/
theorem c5_witness :
    containsSub (nameTok ++ ['x']) camelTok = false
      ∧ substitute nameTok (nameTok ++ ['x']) = nameTok ++ ['x'] :=
  ⟨by decide, c5_no_nested_substitution (nameTok ++ ['x']) (by decide)⟩

theorem lookup_cons_self {β : Type} (p : List String) (b : β)
    (l : List (List String × β)) : ((p, b) :: l).lookup p = some b := by
  simp [List.lookup]

theorem lookup_cons_of_ne {β : Type} {p q : List String} (b : β)
    (l : List (List String × β)) (h : ¬ p = q) :
    ((q, b) :: l).lookup p = l.lookup p := by
  have : (p == q) = false := by simp [h]
  simp [List.lookup, this]

theorem lookup_some_key_mem {β : Type} :
    ∀ {l : List (List String × β)} {p : List String} {c : β},
      l.lookup p = some c → ∃ e ∈ l, e.1 = p
  | [], p, c, h => by simp [List.lookup] at h
  | (k, v) :: l, p, c, h => by
    by_cases he : p = k
    · exact ⟨(k, v), by simp, he.symm⟩
    · rw [lookup_cons_of_ne v l he] at h
      obtain ⟨e, hel, hep⟩ := lookup_some_key_mem h
      exact ⟨e, by simp [hel], hep⟩

theorem createDirAllGo_files :
    ∀ (l : List (List String)) (fs : FS),
      (createDirAllGo fs l).1.files = fs.files
  | [], _ => rfl
  | q :: qs, fs => by
    rw [createDirAllGo]
    split
    · rfl
    · exact createDirAllGo_files qs _

theorem createDirAllGo_success :
    ∀ (l : List (List String)) (fs : FS),
      (∀ q ∈ l, fs.files.lookup q = none) →
      (createDirAllGo fs l).2 = true
        ∧ (createDirAllGo fs l).1.perms = fs.perms
        ∧ ∀ p, p ∈ (createDirAllGo fs l).1.dirs ↔ (p ∈ l ∨ p ∈ fs.dirs)
  | [], fs, _ => ⟨rfl, rfl, fun _ => by simp [createDirAllGo]⟩
  | q :: qs, fs, h => by
    have hq : (fs.files.lookup q).isSome = false := by
      simp [h q (by simp)]
    rw [createDirAllGo, if_neg (by simp [hq])]
    obtain ⟨h1, h2, h3⟩ := createDirAllGo_success qs
      { fs with dirs := q :: fs.dirs } (fun r hr => h r (by simp [hr]))
    refine ⟨h1, h2, fun p => ?_⟩
    rw [h3 p]
    simp only [List.mem_cons]
    tauto

theorem applyUnixMode_files (fs : FS) (p : List String) (mo : Option Nat) :
    (applyUnixMode fs p mo).1.files = fs.files
      ∧ (applyUnixMode fs p mo).1.dirs = fs.dirs := by
  cases mo with
  | none => exact ⟨rfl, rfl⟩
  | some mode =>
    by_cases h : pathExists fs p = true
    · simp only [applyUnixMode, setPermissions, if_pos h]
      exact ⟨trivial, trivial⟩
    · simp only [applyUnixMode, setPermissions, if_neg h]
      exact ⟨trivial, trivial⟩

theorem applyUnixMode_success {fs : FS} {p : List String} {mo : Option Nat}
    (h : mo = none ∨ pathExists fs p = true) :
    (applyUnixMode fs p mo).2 = none := by
  cases mo with
  | none => rfl
  | some mode =>
    rcases h with h | h
    · exact absurd h (by simp)
    · simp only [applyUnixMode, setPermissions, if_pos h]

theorem self_mem_properPrefixes {p : List String} (h : p ≠ []) :
    p ∈ properPrefixes p := by
  have hl : 0 < p.length := List.length_pos.mpr h
  simp only [properPrefixes, List.mem_map, List.mem_range]
  refine ⟨p.length - 1, by omega, ?_⟩
  have he : p.length - 1 + 1 = p.length := by omega
  rw [he, List.take_length]

theorem splitPath_ne_nil {c : Char} (rest : List Char) (hc : ¬ c = '/') :
    splitPath (c :: rest) ≠ [] := by
  unfold splitPath
  rw [splitBy]
  have hb : (c == '/') = false := by simp [hc]
  rw [hb]
  simp only [Bool.false_eq_true, if_false]
  rcases hsp : splitBy (fun c => c == '/') rest with _ | ⟨w, ws⟩
  · exact absurd hsp (splitBy_ne_nil _ rest)
  · have hne : (String.mk (c :: w) != "") = true := by
      simp only [bne_iff_ne, ne_eq]
      intro he
      have hd := congrArg String.data he
      simp at hd
    simp [List.filter, hne]

theorem dirTarget_ne_nil {outDir : List String} {name : List Char}
    (h : isDirName name = true) : pathJoin outDir name ≠ [] := by
  unfold pathJoin
  split
  · simp
  · rename_i hhead
    cases name with
    | nil => simp [isDirName] at h
    | cons c rest =>
      have hc : ¬ c = '/' := by
        intro he
        subst he
        exact hhead (by simp)
      intro he
      exact splitPath_ne_nil rest hc (List.append_eq_nil.mp he).2

theorem processMember_dir (outDir : List String) (nm : Option (List Char))
    (fs : FS) (m : ZipMember) (hd : isDirName m.name = true)
    (hfiles : fs.files = []) :
    (processMember outDir nm fs m).2 = none
      ∧ (processMember outDir nm fs m).1.files = []
      ∧ ∀ p, p ∈ (processMember outDir nm fs m).1.dirs ↔
          (p ∈ properPrefixes (pathJoin outDir m.name) ∨ p ∈ fs.dirs) := by
  set target := pathJoin outDir m.name with htarget
  have hlookup : ∀ q ∈ properPrefixes target, fs.files.lookup q = none := by
    intro q _
    rw [hfiles]
    rfl
  obtain ⟨hb0, _hperms, hdirs0⟩ :=
    createDirAllGo_success (properPrefixes target) fs hlookup
  have hb : (createDirAll fs target).2 = true := by
    rw [createDirAll]
    exact hb0
  have hfs1files : (createDirAll fs target).1.files = [] := by
    rw [createDirAll, createDirAllGo_files, hfiles]
  have hfs1dirs : ∀ p, p ∈ (createDirAll fs target).1.dirs ↔
      (p ∈ properPrefixes target ∨ p ∈ fs.dirs) := by
    rw [createDirAll]
    exact hdirs0
  have hself : target ∈ (createDirAll fs target).1.dirs :=
    (hfs1dirs _).mpr (Or.inl (self_mem_properPrefixes (dirTarget_ne_nil hd)))
  have happ := applyUnixMode_files (createDirAll fs target).1 target m.unixMode
  have hsucc :
      (applyUnixMode (createDirAll fs target).1 target m.unixMode).2 = none :=
    applyUnixMode_success (Or.inr (by simp [pathExists, hself]))
  rw [processMember.eq_def]
  simp only [← htarget, hd, if_true, hb]
  exact ⟨hsucc, happ.1.trans hfs1files, fun p => by rw [happ.2]; exact hfs1dirs p⟩

/-- C6: an archive consisting only of directory markers scaffolds
successfully into a destination containing no files, writes zero files, and
creates exactly the marked directories and their ancestors (idempotently:
whatever directories already existed remain, and creating an existing
directory is fine). -/
theorem c6_directory_only_archive (outDir : List String)
    (nm : Option (List Char)) (members : List ZipMember)
    (dirs0 : List (List String)) (perms0 : List (List String × Nat))
    (hdir : ∀ m ∈ members, isDirName m.name = true) :
    (unzip members outDir nm ⟨dirs0, [], perms0⟩).2 = none
      ∧ (unzip members outDir nm ⟨dirs0, [], perms0⟩).1.files = []
      ∧ ∀ p, p ∈ (unzip members outDir nm ⟨dirs0, [], perms0⟩).1.dirs ↔
          (p ∈ dirs0
            ∨ ∃ m ∈ members, p ∈ properPrefixes (pathJoin outDir m.name)) := by
  suffices hgen : ∀ (ms : List ZipMember) (fs : FS), fs.files = [] →
      (∀ m ∈ ms, isDirName m.name = true) →
      (unzipGo outDir nm fs ms).2 = none
        ∧ (unzipGo outDir nm fs ms).1.files = []
        ∧ ∀ p, p ∈ (unzipGo outDir nm fs ms).1.dirs ↔
            (p ∈ fs.dirs
              ∨ ∃ m ∈ ms, p ∈ properPrefixes (pathJoin outDir m.name)) by
    obtain ⟨h1, h2, h3⟩ := hgen members ⟨dirs0, [], perms0⟩ rfl hdir
    exact ⟨h1, h2, h3⟩
  intro ms
  induction ms with
  | nil =>
    intro fs _ _
    exact ⟨rfl, by assumption, fun p => by simp [unzipGo]⟩
  | cons m rest ih =>
    intro fs hfiles hms
    obtain ⟨hs2, hsfiles, hsdirs⟩ :=
      processMember_dir outDir nm fs m (hms m (by simp)) hfiles
    rcases hstep : processMember outDir nm fs m with ⟨fs1, e⟩
    have he : e = none := by rw [hstep] at hs2; exact hs2
    subst he
    have hfs1files : fs1.files = [] := by rw [hstep] at hsfiles; exact hsfiles
    obtain ⟨h1, h2, h3⟩ := ih fs1 hfs1files (fun m' hm' => hms m' (by simp [hm']))
    rw [unzipGo, hstep]
    refine ⟨h1, h2, fun p => ?_⟩
    rw [h3 p]
    have := hsdirs p
    rw [hstep] at this
    rw [this]
    simp only [List.mem_cons]
    constructor
    · rintro ((hp | hp) | ⟨m', hm', hp⟩)
      · exact Or.inr ⟨m, Or.inl rfl, hp⟩
      · exact Or.inl hp
      · exact Or.inr ⟨m', Or.inr hm', hp⟩
    · rintro (hp | ⟨m', hm' | hm', hp⟩)
      · exact Or.inl (Or.inr hp)
      · subst hm'
        exact Or.inl (Or.inl hp)
      · exact Or.inr ⟨m', hm', hp⟩

theorem ensureParent_files (fs : FS) (outpath : List String) :
    (ensureParent fs outpath).1.files = fs.files := by
  cases hp : parentPath outpath with
  | none => simp [ensureParent, hp]
  | some q =>
    simp only [ensureParent, hp]
    by_cases he : pathExists fs q = true
    · rw [if_pos he]
    · rw [if_neg he]
      split
      · rw [createDirAll, createDirAllGo_files]
      · rw [createDirAll, createDirAllGo_files]

theorem createNewFile_ok {fs : FS} {p : List String} {name : List Char}
    {fs2 : FS} (h : createNewFile fs p name = .ok fs2) :
    fs2.files = (p, []) :: fs.files ∧ fs.files.lookup p = none
      ∧ fs2.dirs = fs.dirs := by
  by_cases hex : pathExists fs p = true
  · rw [createNewFile, if_pos hex] at h
    exact absurd h (by simp)
  · have hnone : fs.files.lookup p = none := by
      simp only [pathExists, Bool.or_eq_true, decide_eq_true_iff] at hex
      push_neg at hex
      cases hl : fs.files.lookup p with
      | none => rfl
      | some v => exact absurd (by simp [hl]) hex.2
    rw [createNewFile, if_neg hex] at h
    by_cases hpar : parentOk fs p = true
    · rw [if_pos hpar] at h
      injection h with h2
      rw [← h2]
      exact ⟨rfl, hnone, rfl⟩
    · rw [if_neg hpar] at h
      exact absurd h (by simp)

theorem writeFileMember_preserves (nm : Option (List Char)) (fs : FS)
    (m : ZipMember) (outpath : List String) {p : List String} {c : List Nat}
    (h : fs.files.lookup p = some c) :
    (writeFileMember nm fs m outpath).1.files.lookup p = some c := by
  rw [writeFileMember.eq_def]
  cases hcf : createNewFile fs outpath m.name with
  | error e => exact h
  | ok fs2 =>
    obtain ⟨hf2, hnone, _⟩ := createNewFile_ok hcf
    have hpne : ¬ p = outpath := by
      intro he
      rw [he, hnone] at h
      exact absurd h (by simp)
    have h2 : fs2.files.lookup p = some c := by
      rw [hf2, lookup_cons_of_ne _ _ hpne]
      exact h
    cases nm with
    | none =>
      rw [(applyUnixMode_files _ _ _).1]
      show ((outpath, m.content) :: fs2.files).lookup p = some c
      rw [lookup_cons_of_ne _ _ hpne]
      exact h2
    | some n =>
      cases hdec : utf8Decode m.content with
      | none => exact h2
      | some text =>
        rw [(applyUnixMode_files _ _ _).1]
        show ((outpath, utf8Encode (substitute text n)) :: fs2.files).lookup p
          = some c
        rw [lookup_cons_of_ne _ _ hpne]
        exact h2

theorem processMember_preserves_lookup (outDir : List String)
    (nm : Option (List Char)) (fs : FS) (m : ZipMember) {p : List String}
    {c : List Nat} (h : fs.files.lookup p = some c) :
    (processMember outDir nm fs m).1.files.lookup p = some c := by
  rw [processMember.eq_def]
  by_cases hd : isDirName m.name = true
  · simp only [hd, if_true]
    by_cases hb : (createDirAll fs (pathJoin outDir m.name)).2 = true
    · rw [if_pos hb, (applyUnixMode_files _ _ _).1, createDirAll,
        createDirAllGo_files]
      exact h
    · rw [if_neg hb]
      show (createDirAll fs (pathJoin outDir m.name)).1.files.lookup p = some c
      rw [createDirAll, createDirAllGo_files]
      exact h
  · simp only [hd, Bool.false_eq_true, if_false]
    have hef := ensureParent_files fs (pathJoin outDir m.name)
    cases he : (ensureParent fs (pathJoin outDir m.name)).2 with
    | some e =>
      show (ensureParent fs (pathJoin outDir m.name)).1.files.lookup p = some c
      rw [hef]
      exact h
    | none =>
      exact writeFileMember_preserves nm _ m _ (by rw [hef]; exact h)

theorem unzipGo_preserves_lookup (outDir : List String)
    (nm : Option (List Char)) :
    ∀ (ms : List ZipMember) (fs : FS) {p : List String} {c : List Nat},
      fs.files.lookup p = some c →
      (unzipGo outDir nm fs ms).1.files.lookup p = some c
  | [], _, _, _, h => h
  | m :: rest, fs, p, c, h => by
    rw [unzipGo]
    rcases hstep : processMember outDir nm fs m with ⟨fs1, e⟩
    have h1 : fs1.files.lookup p = some c := by
      have hpres := processMember_preserves_lookup outDir nm fs m h
      rw [hstep] at hpres
      exact hpres
    cases e with
    | none => exact unzipGo_preserves_lookup outDir nm rest fs1 h1
    | some err => exact h1

theorem processMember_ok_file_none (outDir : List String) (fs : FS)
    (m : ZipMember) (hd : isDirName m.name = false)
    (hok : (processMember outDir none fs m).2 = none) :
    (processMember outDir none fs m).1.files.lookup (pathJoin outDir m.name)
      = some m.content := by
  rw [processMember.eq_def] at hok ⊢
  simp only [hd, Bool.false_eq_true, if_false] at hok ⊢
  cases he : (ensureParent fs (pathJoin outDir m.name)).2 with
  | some e =>
    rw [he] at hok
    exact absurd (show (some e : Option UnzipError) = none from hok) (by simp)
  | none =>
    rw [he] at hok
    have hok3 : (writeFileMember none (ensureParent fs (pathJoin outDir m.name)).1
        m (pathJoin outDir m.name)).2 = none := hok
    show (writeFileMember none (ensureParent fs (pathJoin outDir m.name)).1
        m (pathJoin outDir m.name)).1.files.lookup (pathJoin outDir m.name)
      = some m.content
    rw [writeFileMember.eq_def] at hok3 ⊢
    cases hcf : createNewFile (ensureParent fs (pathJoin outDir m.name)).1
        (pathJoin outDir m.name) m.name with
    | error e =>
      rw [hcf] at hok3
      exact absurd (show (some e : Option UnzipError) = none from hok3) (by simp)
    | ok fs2 =>
      have hfin : (applyUnixMode
          (setFile fs2 (pathJoin outDir m.name) m.content)
          (pathJoin outDir m.name) m.unixMode).1.files.lookup
            (pathJoin outDir m.name) = some m.content := by
        rw [(applyUnixMode_files _ _ _).1]
        exact lookup_cons_self _ _ _
      exact hfin

theorem processMember_ok_file_some (outDir : List String) (n : List Char)
    (fs : FS) (m : ZipMember) (hd : isDirName m.name = false)
    (hok : (processMember outDir (some n) fs m).2 = none) :
    (utf8Decode m.content).isSome = true := by
  rw [processMember.eq_def] at hok
  simp only [hd, Bool.false_eq_true, if_false] at hok
  cases he : (ensureParent fs (pathJoin outDir m.name)).2 with
  | some e =>
    rw [he] at hok
    exact absurd (show (some e : Option UnzipError) = none from hok) (by simp)
  | none =>
    rw [he] at hok
    have hok3 : (writeFileMember (some n)
        (ensureParent fs (pathJoin outDir m.name)).1 m
        (pathJoin outDir m.name)).2 = none := hok
    rw [writeFileMember.eq_def] at hok3
    cases hcf : createNewFile (ensureParent fs (pathJoin outDir m.name)).1
        (pathJoin outDir m.name) m.name with
    | error e =>
      rw [hcf] at hok3
      exact absurd (show (some e : Option UnzipError) = none from hok3) (by simp)
    | ok fs2 =>
      rw [hcf] at hok3
      cases hdec : utf8Decode m.content with
      | none =>
        rw [hdec] at hok3
        exact absurd
          (show (some (UnzipError.nonUtf8 m.name) : Option UnzipError) = none
            from hok3) (by simp)
      | some text => simp

/-- C3: scaffolding without a project name writes every non-directory
member's bytes to its target file unchanged — no UTF-8 validation, no
placeholder replacement (round-trip identity). -/
theorem c3_binary_passthrough (outDir : List String) (fs0 : FS)
    (members : List ZipMember) (fs' : FS)
    (hok : unzip members outDir none fs0 = (fs', none)) :
    ∀ m ∈ members, isDirName m.name = false →
      fs'.files.lookup (pathJoin outDir m.name) = some m.content := by
  suffices hgen : ∀ (ms : List ZipMember) (fs : FS),
      (unzipGo outDir none fs ms).2 = none →
      ∀ m ∈ ms, isDirName m.name = false →
        (unzipGo outDir none fs ms).1.files.lookup (pathJoin outDir m.name)
          = some m.content by
    intro m hm hd
    rw [unzip] at hok
    have hres := hgen members fs0 (by rw [hok]) m hm hd
    rw [hok] at hres
    exact hres
  intro ms
  induction ms with
  | nil =>
    intro fs _ m hm
    simp at hm
  | cons m rest ih =>
    intro fs hok2 m' hm' hd'
    rw [unzipGo] at hok2 ⊢
    rcases hstep : processMember outDir none fs m with ⟨fs1, e⟩
    rw [hstep] at hok2
    cases e with
    | some err =>
      exact absurd (show (some err : Option UnzipError) = none from hok2)
        (by simp)
    | none =>
      have hok3 : (unzipGo outDir none fs1 rest).2 = none := hok2
      show (unzipGo outDir none fs1 rest).1.files.lookup
          (pathJoin outDir m'.name) = some m'.content
      rcases List.mem_cons.mp hm' with rfl | hmr
      · have hw : fs1.files.lookup (pathJoin outDir m'.name)
            = some m'.content := by
          have hl := processMember_ok_file_none outDir fs m' hd'
            (by rw [hstep])
          rw [hstep] at hl
          exact hl
        exact unzipGo_preserves_lookup outDir none rest fs1 hw
      · exact ih fs1 hok3 m' hmr hd'

theorem unzipGo_some_name_decodes (outDir : List String) (n : List Char) :
    ∀ (ms : List ZipMember) (fs : FS),
      (unzipGo outDir (some n) fs ms).2 = none →
      ∀ m ∈ ms, isDirName m.name = false → (utf8Decode m.content).isSome = true
  | [], _, _, m, hm, _ => by simp at hm
  | m :: rest, fs, hok, m', hm', hd' => by
    rw [unzipGo] at hok
    rcases hstep : processMember outDir (some n) fs m with ⟨fs1, e⟩
    rw [hstep] at hok
    cases e with
    | some err =>
      exact absurd (show (some err : Option UnzipError) = none from hok)
        (by simp)
    | none =>
      have hok3 : (unzipGo outDir (some n) fs1 rest).2 = none := hok
      rcases List.mem_cons.mp hm' with rfl | hmr
      · exact processMember_ok_file_some outDir n fs m' hd' (by rw [hstep])
      · exact unzipGo_some_name_decodes outDir n rest fs1 hok3 m' hmr hd'

/-- C4: when a project name is supplied, substitution is attempted on every
non-directory member, and a member whose content is not valid UTF-8 makes the
whole scaffold operation fail rather than being silently skipped. -/
theorem c4_non_utf8_member_fails (outDir : List String) (n : List Char)
    (fs0 : FS) (members : List ZipMember)
    (hbad : ∃ m ∈ members, isDirName m.name = false
        ∧ utf8Decode m.content = none) :
    ((unzip members outDir (some n) fs0).2).isSome = true := by
  obtain ⟨m, hm, hd, hdec⟩ := hbad
  cases he : (unzip members outDir (some n) fs0).2 with
  | some e => simp
  | none =>
    have hde := unzipGo_some_name_decodes outDir n members fs0
      (by rw [unzip] at he; exact he) m hm hd
    rw [hdec] at hde
    exact absurd hde (by simp)

/-- C2: if a file already exists on disk at the target path of a
non-directory member, scaffolding fails with the "File … already exists"
error naming that member, leaves the filesystem — in particular the existing
file's contents — untouched, and aborts the remaining extraction: members
after the colliding one are not written. -/
theorem c2_existing_file_collision (outDir : List String)
    (nm : Option (List Char)) (fs : FS) (m : ZipMember)
    (post : List ZipMember) (c : List Nat)
    (hwf : filesHaveParents fs = true) (hd : isDirName m.name = false)
    (hex : fs.files.lookup (pathJoin outDir m.name) = some c) :
    unzip (m :: post) outDir nm fs
        = (fs, some (.fileAlreadyExists m.name))
      ∧ (unzip (m :: post) outDir nm fs).1.files.lookup
          (pathJoin outDir m.name) = some c := by
  set target := pathJoin outDir m.name with htarget
  have hexists : pathExists fs target = true := by
    simp [pathExists, hex]
  have hens : ensureParent fs target = (fs, none) := by
    obtain ⟨e, hel, hep⟩ := lookup_some_key_mem hex
    have hwfe := (List.all_eq_true.mp hwf) e hel
    rw [hep] at hwfe
    cases hq : parentPath target with
    | none =>
      rw [hq] at hwfe
      simp at hwfe
    | some q =>
      rw [hq] at hwfe
      have hwfe2 : (q.isEmpty || decide (q ∈ fs.dirs)) = true := hwfe
      rw [ensureParent, hq]
      show (if pathExists fs q = true
            then ((fs, none) : FS × Option UnzipError)
          else if (createDirAll fs q).2 = true
            then ((createDirAll fs q).1, none)
          else ((createDirAll fs q).1, some UnzipError.ioError))
        = (fs, none)
      by_cases hpe : pathExists fs q = true
      · rw [if_pos hpe]
      · rw [if_neg hpe]
        have hqe : q.isEmpty = true := by
          simp only [Bool.or_eq_true, decide_eq_true_iff] at hwfe2
          rcases hwfe2 with h | h
          · exact h
          · exact absurd (by simp [pathExists, h]) hpe
        have hq0 : q = [] := by
          cases q with
          | nil => rfl
          | cons a l => simp [List.isEmpty] at hqe
        subst hq0
        simp [createDirAll, properPrefixes, createDirAllGo]
  have hcnf : createNewFile fs target m.name
      = .error (.fileAlreadyExists m.name) := by
    rw [createNewFile, if_pos hexists]
  have hpm : processMember outDir nm fs m
      = (fs, some (.fileAlreadyExists m.name)) := by
    rw [processMember.eq_def]
    simp only [← htarget, hd, Bool.false_eq_true, if_false, hens]
    show writeFileMember nm fs m target
      = (fs, some (.fileAlreadyExists m.name))
    rw [writeFileMember.eq_def, hcnf]
  constructor
  · rw [unzip, unzipGo, hpm]
  · rw [unzip, unzipGo, hpm]
    exact hex

/-- Witness for C2: a destination already holding `out/a.txt` with bytes
`[9]` makes a two-member archive fail on its first member with the
"File … already exists" error, leaving the filesystem untouched and the
second member unwritten. -/
theorem c2_witness :
    filesHaveParents ⟨[["out"]], [(["out", "a.txt"], [9])], []⟩ = true
      ∧ isDirName ("a.txt".toList) = false
      ∧ (⟨[["out"]], [(["out", "a.txt"], [9])], []⟩ : FS).files.lookup
          (pathJoin ["out"] ("a.txt".toList)) = some [9]
      ∧ unzip [⟨"a.txt".toList, [1, 2], none⟩, ⟨"b.txt".toList, [3], none⟩]
          ["out"] none ⟨[["out"]], [(["out", "a.txt"], [9])], []⟩
        = (⟨[["out"]], [(["out", "a.txt"], [9])], []⟩,
            some (.fileAlreadyExists ("a.txt".toList))) :=
  ⟨by decide, by decide, by decide,
    (c2_existing_file_collision ["out"] none
        ⟨[["out"]], [(["out", "a.txt"], [9])], []⟩
        ⟨"a.txt".toList, [1, 2], none⟩ [⟨"b.txt".toList, [3], none⟩] [9]
        (by decide) (by decide) (by decide)).1⟩

/-- Witness for C3: a successful no-name scaffold of one binary member with
non-UTF-8 bytes `[255, 0]` ends with exactly those bytes at the target. -/
theorem c3_witness :
    unzip [⟨"a/b.bin".toList, [255, 0], none⟩] ["out"] none ⟨[], [], []⟩
        = (⟨[["out", "a"], ["out"]],
            [(["out", "a", "b.bin"], [255, 0]), (["out", "a", "b.bin"], [])],
            []⟩, none)
      ∧ (⟨"a/b.bin".toList, [255, 0], none⟩ : ZipMember)
          ∈ [(⟨"a/b.bin".toList, [255, 0], none⟩ : ZipMember)]
      ∧ isDirName ("a/b.bin".toList) = false
      ∧ (⟨[["out", "a"], ["out"]],
            [(["out", "a", "b.bin"], [255, 0]), (["out", "a", "b.bin"], [])],
            []⟩ : FS).files.lookup (pathJoin ["out"] ("a/b.bin".toList))
        = some [255, 0] :=
  ⟨by decide, by decide, by decide,
    c3_binary_passthrough ["out"] ⟨[], [], []⟩
      [⟨"a/b.bin".toList, [255, 0], none⟩]
      ⟨[["out", "a"], ["out"]],
        [(["out", "a", "b.bin"], [255, 0]), (["out", "a", "b.bin"], [])], []⟩
      (by decide) ⟨"a/b.bin".toList, [255, 0], none⟩ (by decide) (by decide)⟩

/-- Witness for C4: with a project name supplied, an archive whose single
member holds the non-UTF-8 byte `0xFF` makes the scaffold fail. -/
theorem c4_witness :
    utf8Decode [255] = none
      ∧ (unzip [⟨"x".toList, [255], none⟩] ["out"] (some ("demo".toList))
          ⟨[["out"]], [], []⟩).2.isSome = true :=
  ⟨by decide,
    c4_non_utf8_member_fails ["out"] ("demo".toList) ⟨[["out"]], [], []⟩
      [⟨"x".toList, [255], none⟩]
      ⟨⟨"x".toList, [255], none⟩, by decide, by decide, by decide⟩⟩

/-- Witness for C6: an archive of the two directory markers `a/` and `a/b/`
scaffolds with no error and no files, and the created directory `out/a` is
accounted for exactly by the members' ancestor prefixes. -/
theorem c6_witness :
    (∀ m ∈ [(⟨"a/".toList, [], some 493⟩ : ZipMember),
        ⟨"a/b/".toList, [], none⟩], isDirName m.name = true)
      ∧ (unzip [⟨"a/".toList, [], some 493⟩, ⟨"a/b/".toList, [], none⟩]
          ["out"] none ⟨[], [], []⟩).2 = none
      ∧ (unzip [⟨"a/".toList, [], some 493⟩, ⟨"a/b/".toList, [], none⟩]
          ["out"] none ⟨[], [], []⟩).1.files = []
      ∧ (["out", "a"] ∈ (unzip [⟨"a/".toList, [], some 493⟩,
            ⟨"a/b/".toList, [], none⟩] ["out"] none ⟨[], [], []⟩).1.dirs ↔
          (["out", "a"] ∈ ([] : List (List String))
            ∨ ∃ m ∈ [(⟨"a/".toList, [], some 493⟩ : ZipMember),
                ⟨"a/b/".toList, [], none⟩],
                ["out", "a"] ∈ properPrefixes (pathJoin ["out"] m.name))) :=
  ⟨by decide,
    (c6_directory_only_archive ["out"] none
        [⟨"a/".toList, [], some 493⟩, ⟨"a/b/".toList, [], none⟩] [] []
        (by decide)).1,
    (c6_directory_only_archive ["out"] none
        [⟨"a/".toList, [], some 493⟩, ⟨"a/b/".toList, [], none⟩] [] []
        (by decide)).2.1,
    (c6_directory_only_archive ["out"] none
        [⟨"a/".toList, [], some 493⟩, ⟨"a/b/".toList, [], none⟩] [] []
        (by decide)).2.2 ["out", "a"]⟩

end Contract
